import Mathlib

/-!
Verification development for the haystack repository (src/patterns.py and
src/haystack.py), a line-oriented text search tool with fixed-string, regex
and fuzzy-regex patterns.

The Python sources are shallowly embedded below.  Pure string manipulation is
translated to functions on List Char; Python dictionaries become association
lists; Python exceptions become Except values; the Python None return value of
search becomes Option.none.  The external regular-expression engine (the re
module) is not part of this repository: where the scanner consults it, the
compiled regular expression is modelled as an oracle function from a line to
an optional dictionary of named captures (anchored-at-start match semantics).
Loops that are not structurally recursive are written with an explicit fuel
argument equal to the number of remaining loop iterations, so that every
definition evaluates by kernel reduction.
-/

namespace Haystack

/-! ## Character classes and basic string helpers -/

/-- Python substring membership (the in operator on strings). -/
def isSubstrOf (p : List Char) : List Char → Bool
  | [] => p.isEmpty
  | c :: s => p.isPrefixOf (c :: s) || isSubstrOf p s

/-- The character class [0-9A-Za-z] used by p_regex_regex and p_word_regex in
src/patterns.py. -/
def isAlnumAZ (c : Char) : Bool :=
  (('0' ≤ c && c ≤ '9') || ('A' ≤ c && c ≤ 'Z') || ('a' ≤ c && c ≤ 'z'))

/-- A Python regex word character (the \w class, ASCII): alphanumeric or
underscore. -/
def isWordCh (c : Char) : Bool := isAlnumAZ c || c == '_'

/-- The whitespace characters stripped by the Python str.rstrip method. -/
def isPySpace (c : Char) : Bool :=
  c == ' ' || c == '\t' || c == '\n' || c == '\r' || c == '\x0b' || c == '\x0c'

/-- Python str.rstrip(): remove all trailing whitespace. -/
def rstrip (s : List Char) : List Char := (s.reverse.dropWhile isPySpace).reverse

/-- Python str.lower() (ASCII case folding, which is what the tool uses). -/
def lower (s : List Char) : List Char := s.map Char.toLower

/-! ## Flag constants (FixedPattern / RegExPattern in src/patterns.py)

The source assigns ICASE = 1, WHOLE = 2, MULTI = 3, DOTALL = 4, UNICODE = 5,
VERBOSE = 6 and combines flags with bitwise or, testing them with
flags & flag == flag. -/

def ICASE : Nat := 1
def WHOLE : Nat := 2
def MULTI : Nat := 3
def DOTALL : Nat := 4
def UNICODE : Nat := 5
def VERBOSE : Nat := 6

/-- FixedPattern.has_flag: flags & flag == flag. -/
def has_flag (flags flag : Nat) : Bool := flags &&& flag == flag

/-- Values of the Python 2 re module flag constants. -/
def reIGNORECASE : Nat := 2
def reMULTILINE : Nat := 8
def reDOTALL : Nat := 16
def reUNICODE : Nat := 32
def reVERBOSE : Nat := 64

/-- RegExPattern._f2rf: translate the flag bitmask of this library into re
module flags.  The source iterates over the translation table
{1: IGNORECASE, 3: MULTILINE, 4: DOTALL, 5: UNICODE, 6: VERBOSE} and ors in
the re flag whenever flags & t == t. -/
def f2rf (flags : Nat) : Nat :=
  [(1, reIGNORECASE), (3, reMULTILINE), (4, reDOTALL), (5, reUNICODE), (6, reVERBOSE)].foldl
    (fun rf tv => if flags &&& tv.1 == tv.1 then rf ||| tv.2 else rf) 0

/-! ## FixedPattern (src/patterns.py lines 18-43) -/

/-- Python exceptions that the embedded code can raise. -/
inductive PyErr where
  | attributeError : PyErr
  | keyError : PyErr
  | valueError : PyErr
deriving DecidableEq, Repr

structure FixedPattern where
  pattern : List Char
  flags : Nat

/-- The body of FixedPattern.matches as written, parameterised by the flag
test the source tries to invoke as self.has(...).  The class defines only
has_flag, so this body is never reached at run time; it is kept to document
the intended computation. -/
def matchesBody (p : FixedPattern) (s : List Char) (has : Nat → Bool) : Bool × Option Unit :=
  let pattern := p.pattern
  let ps := if has ICASE then (lower pattern, lower s) else (pattern, s)
  if has WHOLE then (ps.1 == ps.2, none) else (isSubstrOf ps.1 ps.2, none)

/-- FixedPattern.matches (the name matches is reserved in Lean, hence the
prefix).  The first statement after the pattern assignment is
if self.has(FixedPattern.ICASE), but the class (and its only base, object)
defines has_flag, not has, so attribute lookup of self.has raises
AttributeError before any comparison happens. -/
def fixedMatches (p : FixedPattern) (s : List Char) : Except PyErr (Bool × Option Unit) :=
  .error .attributeError

/-! ## Levenshtein distance (FuzzyRegExPattern.levenshtein, lines 102-123)

The source computes the classic dynamic programming rows: previous_row is
initialised to range(len(s2) + 1); for each character c1 of s1 a current_row
is built starting with i + 1 and extended with
min(previous_row[j+1] + 1, current_row[j] + 1, previous_row[j] + (c1 != c2))
for each character c2 of s2; the answer is previous_row[-1]. -/

/-- The inner loop of the DP: given the remainder of previous_row (starting
at index j), the last entry appended to current_row, and the remaining
characters of s2, produce the entries of current_row past index 0. -/
def pyRow (c1 : Char) : List Nat → Nat → List Char → List Nat
  | p0 :: prest, left, c2 :: cs =>
    let insertions := prest.headD 0 + 1
    let deletions := left + 1
    let substitutions := p0 + (if c1 = c2 then 0 else 1)
    let e := min (min insertions deletions) substitutions
    e :: pyRow c1 prest e cs
  | _, _, [] => []
  | [], _, _ :: _ => []

/-- The outer loop of the DP over the characters of s1 (i is the 0-based
index of c1, as produced by enumerate). -/
def pyLevAux (s2 : List Char) : List Char → List Nat → Nat → List Nat
  | [], prev, _ => prev
  | c1 :: rest, prev, i => pyLevAux s2 rest ((i + 1) :: pyRow c1 prev (i + 1) s2) (i + 1)

/-- The body of levenshtein after the initial swap: if len(s2) == 0 return
len(s1), else run the DP and return previous_row[-1]. -/
def levCore (s1 s2 : List Char) : Nat :=
  if s2.length = 0 then s1.length
  else (pyLevAux s2 s1 (List.range (s2.length + 1)) 0).getLastD 0

/-- FuzzyRegExPattern.levenshtein: if len(s1) < len(s2) swap the arguments,
then run the DP. -/
def levenshtein (s1 s2 : List Char) : Nat :=
  if s1.length < s2.length then levCore s2 s1 else levCore s1 s2

/-- Reference recursive definition of the Levenshtein edit distance
(insertion, deletion, substitution at unit cost), used as the specification
the DP is proved against. -/
def levRec : List Char → List Char → Nat
  | [], ys => ys.length
  | _ :: xs, [] => xs.length + 1
  | x :: xs, y :: ys =>
    min (min (levRec xs (y :: ys) + 1) (levRec (x :: xs) ys + 1))
      (levRec xs ys + (if x = y then 0 else 1))
termination_by a b => a.length + b.length
decreasing_by all_goals simp [List.length_cons] <;> omega

/-- Specification of a full DP row: the distances from aRow to the reversed
prefixes of cs, each extended by the already-consumed context u. -/
def rowSpec (aRow u : List Char) : List Char → List Nat
  | [] => [levRec aRow u]
  | c :: cs => levRec aRow u :: rowSpec aRow (c :: u) cs

/-- Specification of a DP row without its first entry. -/
def restRow (aRow u : List Char) : List Char → List Nat
  | [] => []
  | c :: cs => levRec aRow (c :: u) :: restRow aRow (c :: u) cs

/-! ## FuzzyRegExPattern construction (src/patterns.py lines 125-135)

p_regex_regex is the regular expression \b(?<!\\)(?<!P\<)[0-9A-Za-z]{2,}\b.
A match is a maximal run of regex word characters that consists only of
[0-9A-Za-z] (a run containing an underscore has no word boundary inside it),
has length at least two, and is not immediately preceded by a backslash or by
the two characters P<. findall returns these runs in order of appearance. -/

/-- The lookbehind tests of p_regex_regex at the start of a word run, given
the two previously consumed characters. -/
def lookbehindOK (p2 p1 : Option Char) : Bool :=
  !(p1 == some '\\') && !(p2 == some 'P' && p1 == some '<')

/-- Scanner for p_regex_regex.findall.  p2 and p1 are the two previously
consumed characters, acc is the current word-character run (reversed), and ok
records whether the lookbehind tests held at the start of the run. -/
def findallAux : Option Char → Option Char → List Char → Bool → List Char → List (List Char)
  | _, _, acc, ok, [] =>
    if ok && decide (2 ≤ acc.length) && acc.all isAlnumAZ then [acc.reverse] else []
  | p2, p1, acc, ok, c :: rest =>
    if isWordCh c then
      if acc.isEmpty then findallAux p1 (some c) [c] (lookbehindOK p2 p1) rest
      else findallAux p1 (some c) (c :: acc) ok rest
    else
      if ok && decide (2 ≤ acc.length) && acc.all isAlnumAZ then
        acc.reverse :: findallAux p1 (some c) [] false rest
      else findallAux p1 (some c) [] false rest

/-- p_regex_regex.findall. -/
def findall (s : List Char) : List (List Char) := findallAux none none [] false s

/-- The replacement token the constructor substitutes for each word. -/
def wtoken : List Char := "\\w+".toList

/-- Python str.replace(old, new): replace every non-overlapping occurrence,
scanning left to right.  The fuel argument bounds the number of loop steps;
each step consumes at least one character, so fuel = length of the string
suffices.  (Python replace with an empty old string behaves differently, but
the constructor only ever replaces words of length at least two.) -/
def replaceAllFuel (w r : List Char) : Nat → List Char → List Char
  | 0, s => s
  | fuel + 1, s =>
    if w ≠ [] ∧ w.isPrefixOf s then r ++ replaceAllFuel w r fuel (s.drop w.length)
    else
      match s with
      | [] => []
      | c :: s' => c :: replaceAllFuel w r fuel s'

def replaceAll (w r s : List Char) : List Char := replaceAllFuel w r s.length s

/-- The constructor loop: for i, word in enumerate(findall(pattern)), replace
every occurrence of word in the evolving pattern by the generic token and
record word in the word table at key i. -/
def fuzzyLoop : List (Nat × List Char) → List Char → List (Nat × List Char) →
    List Char × List (Nat × List Char)
  | [], pat, ws => (pat, ws)
  | (i, word) :: rest, pat, ws =>
    fuzzyLoop rest (replaceAll word wtoken pat) (ws ++ [(i, word)])

/-- FuzzyRegExPattern.__init__: run the rewrite loop on the raw pattern, then
wrap the result in anchors when the whole-match flag is set.  Returns the
stored pattern string and the word table. -/
def fuzzyInit (pattern : List Char) (flags : Nat) : List Char × List (Nat × List Char) :=
  let pw := fuzzyLoop (findall pattern).enum pattern []
  let pat := if has_flag flags WHOLE then '^' :: pw.1 ++ ['$'] else pw.1
  (pat, pw.2)

/-!  Modelled from the spec claim wording for C8 only: a replacement that
rewrites just the first literal occurrence of the word and leaves later
occurrences unchanged.  This is not the behaviour of the source (str.replace
is occurrence-global); it exists solely to exhibit the divergence. -/

def replaceFirstFuel (w r : List Char) : Nat → List Char → List Char
  | 0, s => s
  | fuel + 1, s =>
    if w ≠ [] ∧ w.isPrefixOf s then r ++ s.drop w.length
    else
      match s with
      | [] => []
      | c :: s' => c :: replaceFirstFuel w r fuel s'

def replaceFirst (w r s : List Char) : List Char := replaceFirstFuel w r s.length s

/-- Modelled from the spec: the rewrite C8 describes, replacing only the
first occurrence of each recorded word. -/
def specRewrite (p : List Char) : List Char :=
  (findall p).foldl (fun acc w => replaceFirst w wtoken acc) p

/-! ## FuzzyRegExPattern.distance (src/patterns.py lines 137-149)

p_word_regex is [0-9A-Za-z]+: findall returns the maximal alphanumeric runs
of the line, in order. -/

/-- p_word_regex.findall: maximal [0-9A-Za-z]+ runs.  acc is the current run,
reversed. -/
def wordsOfAux (acc : List Char) : List Char → List (List Char)
  | [] => if acc.isEmpty then [] else [acc.reverse]
  | c :: rest =>
    if isAlnumAZ c then wordsOfAux (c :: acc) rest
    else if acc.isEmpty then wordsOfAux [] rest
    else acc.reverse :: wordsOfAux [] rest

def wordsOf (s : List Char) : List (List Char) := wordsOfAux [] s

/-- The loop body of distance: for i, word in enumerate(findall(string)).
The source reads word1 = self.words[i] before testing i not in
self.words.keys(), so a line with more words than the table raises KeyError;
the penalty branch below it is unreachable. -/
def distanceLoop (words : List (Nat × List Char)) (icase : Bool) :
    List (Nat × List Char) → Nat → Except PyErr Nat
  | [], d => .ok d
  | (i, word) :: rest, d =>
    match words.lookup i with
    | none => .error .keyError
    | some w1 =>
      let word1 := if icase then lower w1 else w1
      let word2 := if icase then lower word else word
      let inc := if (words.lookup i).isNone then word2.length else levenshtein word1 word2
      distanceLoop words icase rest (d + inc)

/-- FuzzyRegExPattern.distance. -/
def distance (words : List (Nat × List Char)) (flags : Nat) (s : List Char) :
    Except PyErr Nat :=
  distanceLoop words (has_flag flags ICASE) (wordsOf s).enum 0

/-! ## from_string (src/patterns.py lines 157-191) -/

/-- re.match of p_cmd_line_regex (/(.*)/(.*)$) against the specification
string: the string must start with a slash and contain a later slash; the
greedy first group extends to the last slash, the second group is the rest.
The embedding covers newline-free inputs (the dot of the Python regex does
not match a newline). -/
def pCmdLineMatch (s : List Char) : Option (List Char × List Char) :=
  match s with
  | '/' :: rest =>
    if ('/' ∈ rest) ∧ ('\n' ∉ rest) then
      let after := (rest.reverse.takeWhile (fun c => !(c == '/'))).reverse
      let body := rest.take (rest.length - after.length - 1)
      some (body, after)
    else none
  | _ => none

/-- p_cmd_flag_regex.findall ((\w+(?:\:\w+)?),? scanned repeatedly): tokens
are word-character runs, optionally extended by a colon and a second
word-character run.  Each loop step consumes at least one character, so fuel
= length of the string suffices. -/
def flagTokensFuel : Nat → List Char → List (List Char)
  | 0, _ => []
  | fuel + 1, s =>
    match s with
    | [] => []
    | c :: rest =>
      if isWordCh c then
        let run1 := c :: rest.takeWhile isWordCh
        let rest1 := rest.dropWhile isWordCh
        match rest1 with
        | ':' :: d :: rest2 =>
          if isWordCh d then
            (run1 ++ ':' :: d :: rest2.takeWhile isWordCh) ::
              flagTokensFuel fuel (rest2.dropWhile isWordCh)
          else run1 :: flagTokensFuel fuel rest1
        | _ => run1 :: flagTokensFuel fuel rest1
      else flagTokensFuel fuel rest

def flagTokens (s : List Char) : List (List Char) := flagTokensFuel s.length s

/-- The flags dictionary of from_string. -/
def flag_value (t : List Char) : Option Nat :=
  if t = "i".toList ∨ t = "icase".toList then some ICASE
  else if t = "m".toList ∨ t = "multi".toList then some MULTI
  else if t = "d".toList ∨ t = "dotall".toList then some DOTALL
  else if t = "u".toList ∨ t = "unicode".toList then some UNICODE
  else if t = "v".toList ∨ t = "verbose".toList then some VERBOSE
  else if t = "w".toList ∨ t = "whole".toList then some WHOLE
  else none

/-- Python str.split(sep) for a single character separator. -/
def splitCharAux (sep : Char) (acc : List Char) : List Char → List (List Char)
  | [] => [acc.reverse]
  | c :: rest =>
    if c == sep then acc.reverse :: splitCharAux sep [] rest
    else splitCharAux sep (c :: acc) rest

def splitChar (sep : Char) (s : List Char) : List (List Char) := splitCharAux sep [] s

/-- Python int(str): optional surrounding whitespace and sign followed by at
least one digit; anything else raises ValueError. -/
def pyInt (s : List Char) : Except PyErr Int :=
  let t := ((s.dropWhile isPySpace).reverse.dropWhile isPySpace).reverse
  let sd : Int × List Char :=
    match t with
    | '-' :: r => (-1, r)
    | '+' :: r => (1, r)
    | r => (1, r)
  if sd.2 ≠ [] ∧ sd.2.all (fun c => '0' ≤ c && c ≤ '9') then
    .ok (sd.1 * sd.2.foldl (fun a c => a * 10 + ((c.toNat - '0'.toNat : Nat) : Int)) 0)
  else .error .valueError

/-- The result of from_string: which constructor is invoked, with the pattern
body and flag bitmask (and the edit-distance threshold for the fuzzy case). -/
inductive ParsedPattern where
  | fixedPat : List Char → Nat → ParsedPattern
  | regexPat : List Char → Nat → ParsedPattern
  | fuzzyPat : List Char → Nat → Int → ParsedPattern
deriving DecidableEq, Repr

/-- The second loop of from_string: the first flag token starting with a (or
approx) selects the fuzzy constructor.  The conversion of the part after the
colon to an integer is wrapped in a try that catches only IndexError (a
missing parameter yields the default distance 3); a ValueError from a
malformed integer propagates out of from_string. -/
def fuzzyFlagScan : List (List Char) → List Char → Nat → Except PyErr ParsedPattern
  | [], body, f => .ok (.regexPat body f)
  | t :: rest, body, f =>
    if "a".toList.isPrefixOf t || "approx".toList.isPrefixOf t then
      match (splitChar ':' t).get? 1 with
      | none => .ok (.fuzzyPat body f 3)
      | some ns =>
        match pyInt ns with
        | .error e => .error e
        | .ok d => .ok (.fuzzyPat body f d)
    else fuzzyFlagScan rest body f

/-- from_string (for a non-None argument: the None shortcut returns None
before any of this runs). -/
def from_string (s : List Char) (flag : Nat) : Except PyErr ParsedPattern :=
  match pCmdLineMatch s with
  | none => .ok (.fixedPat s flag)
  | some (body, flagstr) =>
    let toks := flagTokens flagstr
    let f := toks.foldl
      (fun f t => match flag_value t with | some v => f ||| v | none => f) flag
    fuzzyFlagScan toks body f

/-! ## The scanner (search and its nested helpers, src/haystack.py 112-231)

search walks the line buffer with an index, normalising lines[line] with
rstrip in place (the buffer mutation is threaded explicitly), matching the
trigger pattern, and on a hit calling _found_result, which either emits
immediately (no anchor pattern) or runs _backtrack, stepping away from the
trigger index until the anchor pattern matches or the index leaves the
buffer.  The groups dictionary is an association list in which a later
binding for a key shadows an earlier one (exactly the observable behaviour of
dict assignment and dict.update); emission of a record appends the current
groups dictionary to the matches list (the source formats it into a string at
that moment; the claims under scan concern the record fields and counts, which
the formatting does not alter).  The compiled regular expressions the scanner
receives are external re objects; they are modelled as oracle functions from
the line to an optional dictionary of named captures (re.match semantics).

instant is embedded as False (printing instead of appending changes no
counter and no record).  The context parameter of search is never consulted
by the source, which always accumulates context, and is therefore omitted. -/

/-- A value stored in the groups dictionary: a string or an integer. -/
inductive Val where
  | s : List Char → Val
  | n : Int → Val
deriving DecidableEq, Repr

/-- The groups dictionary.  A new binding is consed on the front and lookup
takes the first hit, which models overwriting assignment. -/
def Groups := List (List Char × Val)

instance : DecidableEq Groups := inferInstanceAs (DecidableEq (List (List Char × Val)))

instance : Membership (List Char × Val) Groups := inferInstanceAs (Membership _ (List _))

/-- Dictionary assignment groups[k] = v. -/
def dset (k : List Char) (v : Val) (g : Groups) : Groups := (k, v) :: g

/-- Dictionary lookup groups[k]. -/
def dget (g : Groups) (k : List Char) : Option Val := List.lookup k g

/-- groups.update(caps): every binding of caps overwrites the corresponding
binding of g, later entries of caps taking precedence. -/
def updates (g : Groups) (caps : Groups) : Groups :=
  caps.foldl (fun a kv => kv :: a) g

/-- The integer content of a value (results is always an integer in the
source). -/
def valInt : Val → Int
  | .n k => k
  | .s _ => 0

def kFile : List Char := "file".toList
def kFirstLine : List Char := "first_line".toList
def kFirstLineNum : List Char := "first_line_num".toList
def kSecondLine : List Char := "second_line".toList
def kSecondLineNum : List Char := "second_line_num".toList
def kResults : List Char := "results".toList
def kContext : List Char := "context".toList

/-- The increment of the results counter, groups at key results plus one. -/
def incrResults (g : Groups) : Groups :=
  dset kResults (.n (valInt ((dget g kResults).getD (.n 0)) + 1)) g

/-- The context entry of groups, read as a string. -/
def getCtx (g : Groups) : List Char :=
  match dget g kContext with
  | some (.s c) => c
  | _ => []

/-- A pattern as the scanner sees it: either a fixed string (matched with the
in operator) or a compiled regular expression, modelled as an anchored match
oracle returning the groupdict on success. -/
inductive Pat where
  | fixedStr : List Char → Pat
  | regex : (List Char → Option Groups) → Pat

/-- The three dictionary assignments at the top of the _backtrack loop body
for index i: the context accumulation (appending the visited line after the
context when stepping forward, prepending it when stepping backward), then
second_line and second_line_num. -/
def btStep (forwards : Bool) (lines : List (List Char)) (i : Nat) (g : Groups) : Groups :=
  dset kSecondLineNum (.n i) (dset kSecondLine (.s (lines.getD i []))
    (dset kContext (.s (if forwards then getCtx g ++ '\n' :: lines.getD i []
      else lines.getD i [] ++ '\n' :: getCtx g)) g))

/-- The nested function _backtrack, iterating over the precomputed list of
indices the while loop would visit.  Returns the groups dictionary as left by
the loop together with the emitted record, if any.  In the regex branch the
record is emitted and then results is incremented; in the fixed-string branch
the source emits and returns without touching results. -/
def backtrackLoop (sp : Pat) (forwards : Bool) (lines : List (List Char)) :
    List Nat → Groups → Groups × Option Groups
  | [], g => (g, none)
  | i :: rest, g =>
    match sp with
    | .regex f =>
      match f (lines.getD i []) with
      | some caps =>
        (incrResults (updates (btStep forwards lines i g) caps),
         some (updates (btStep forwards lines i g) caps))
      | none => backtrackLoop sp forwards lines rest (btStep forwards lines i g)
    | .fixedStr p =>
      if isSubstrOf p (lines.getD i []) then
        (btStep forwards lines i g, some (btStep forwards lines i g))
      else backtrackLoop sp forwards lines rest (btStep forwards lines i g)

/-- The indices _backtrack visits from a trigger at index idx: idx-1 down to 0
when searching backward, idx+1 up to the end of the buffer when searching
forward. -/
def btIndices (forwards : Bool) (len idx : Nat) : List Nat :=
  if forwards then List.range' (idx + 1) (len - (idx + 1)) else (List.range idx).reverse

/-- Appending an emitted record, if any, to the matches list. -/
def appendEmission (ms : List Groups) : Option Groups → List Groups
  | some r => ms ++ [r]
  | none => ms

/-- The nested function _found_result: with an anchor pattern, seed context
with the trigger line and run _backtrack (whose emission, if any, was
appended to matches); without one, emit the record immediately and increment
results. -/
def found_result (sp : Option Pat) (forwards : Bool) (lines : List (List Char)) (idx : Nat)
    (g : Groups) (ms : List Groups) : Groups × List Groups :=
  match sp with
  | some sp =>
    ((backtrackLoop sp forwards lines (btIndices forwards lines.length idx)
        (dset kContext (.s (lines.getD idx [])) g)).1,
     appendEmission ms (backtrackLoop sp forwards lines (btIndices forwards lines.length idx)
        (dset kContext (.s (lines.getD idx [])) g)).2)
  | none => (incrResults g, ms ++ [g])

/-- The in-place normalization lines[line] = lines[line].rstrip() of the
outer loop. -/
def stripAt (lines : List (List Char)) (idx : Nat) : List (List Char) :=
  lines.set idx (rstrip (lines.getD idx []))

/-- groups.clear() followed by the update that installs the file name, the
current (already stripped) line as first_line, the current index as
first_line_num, and the saved results counter. -/
def initGroups (file : List Char) (lines : List (List Char)) (idx : Nat)
    (results : Val) : Groups :=
  [(kFile, .s file), (kFirstLine, .s (lines.getD idx [])),
   (kFirstLineNum, .n idx), (kResults, results)]

/-- The while loop of search.  fuel is the number of remaining iterations
(one per line index), so fuel = lines.length at entry makes the loop
equivalent to while line < len(lines).  Returns none for the bare return
statement executed when the results counter has reached max_results (Python
returns None there, discarding the matches list), and some matches when the
walk reaches the end of the buffer. -/
def searchLoop (file : List Char) (fp : Pat) (sp : Option Pat) (forwards : Bool)
    (max_results : Int) :
    Nat → List (List Char) → Nat → Groups → List Groups → Option (List Groups)
  | 0, _, _, _, ms => some ms
  | fuel + 1, lines, idx, g, ms =>
    if idx < lines.length then
      if max_results > -1 ∧ valInt ((dget g kResults).getD (.n 0)) ≥ max_results then none
      else
        match fp with
        | .regex f =>
          match f ((stripAt lines idx).getD idx []) with
          | some caps =>
            searchLoop file fp sp forwards max_results fuel (stripAt lines idx) (idx + 1)
              (found_result sp forwards (stripAt lines idx) idx
                (updates (initGroups file (stripAt lines idx) idx
                  ((dget g kResults).getD (.n 0))) caps) ms).1
              (found_result sp forwards (stripAt lines idx) idx
                (updates (initGroups file (stripAt lines idx) idx
                  ((dget g kResults).getD (.n 0))) caps) ms).2
          | none =>
            searchLoop file fp sp forwards max_results fuel (stripAt lines idx) (idx + 1)
              (initGroups file (stripAt lines idx) idx ((dget g kResults).getD (.n 0))) ms
        | .fixedStr p =>
          if isSubstrOf p ((stripAt lines idx).getD idx []) then
            searchLoop file fp sp forwards max_results fuel (stripAt lines idx) (idx + 1)
              (found_result sp forwards (stripAt lines idx) idx
                (initGroups file (stripAt lines idx) idx
                  ((dget g kResults).getD (.n 0))) ms).1
              (found_result sp forwards (stripAt lines idx) idx
                (initGroups file (stripAt lines idx) idx
                  ((dget g kResults).getD (.n 0))) ms).2
          else
            searchLoop file fp sp forwards max_results fuel (stripAt lines idx) (idx + 1)
              (initGroups file (stripAt lines idx) idx ((dget g kResults).getD (.n 0))) ms
    else some ms

/-- search: walk the whole buffer starting at line 0 with the results
counter at zero and an empty matches list. -/
def search (file : List Char) (fp : Pat) (sp : Option Pat) (forwards : Bool)
    (max_results : Int) (lines : List (List Char)) : Option (List Groups) :=
  searchLoop file fp sp forwards max_results lines.length lines 0 [(kResults, .n 0)] []

/-- The dictionary keys the scanner itself writes. -/
def scannerKeys : List (List Char) :=
  [kFile, kFirstLine, kFirstLineNum, kSecondLine, kSecondLineNum, kResults, kContext]

/-- A pattern whose named captures do not collide with the keys the scanner
writes (a capture group named, say, second_line would overwrite the scanner
field of the same name). -/
def GoodPat : Pat → Prop
  | .fixedStr _ => True
  | .regex f => ∀ s caps, f s = some caps → ∀ kv ∈ caps, kv.1 ∉ scannerKeys

/-- The line-normalization property of an emitted record stated against the
original buffer: first_line is the rstripped original trigger line, while
second_line is the raw original line in forward mode and the rstripped
original line in backward mode. -/
def RecordProp (fwd : Bool) (orig : List (List Char)) (r : Groups) : Prop :=
  ∀ (i j : Nat), dget r kSecondLineNum = some (.n i) →
    dget r kFirstLineNum = some (.n j) →
    dget r kSecondLine = some (.s (if fwd then orig.getD i [] else rstrip (orig.getD i []))) ∧
      dget r kFirstLine = some (.s (rstrip (orig.getD j [])))

/-! ## Theorems: Levenshtein DP correctness (claim C7) -/

theorem levRec_nil_right (xs : List Char) : levRec xs [] = xs.length := by
  cases xs <;> simp [levRec]

theorem levRec_comm : ∀ (a b : List Char), levRec a b = levRec b a
  | [], b => by simp [levRec, levRec_nil_right]
  | _ :: _, [] => by simp [levRec, levRec_nil_right]
  | x :: xs, y :: ys => by
    have h1 := levRec_comm xs (y :: ys)
    have h2 := levRec_comm (x :: xs) ys
    have h3 := levRec_comm xs ys
    have hc : (if x = y then 0 else 1) = (if y = x then 0 else 1) := by
      by_cases h : x = y
      · simp [h]
      · simp [h, Ne.symm h]
    simp only [levRec, h1, h2, h3, hc]
    rw [Nat.min_comm (levRec (y :: ys) xs + 1) (levRec ys (x :: xs) + 1)]
termination_by a b => a.length + b.length
decreasing_by all_goals simp [List.length_cons] <;> omega

theorem levRec_self : ∀ (a : List Char), levRec a a = 0
  | [] => by simp [levRec]
  | x :: xs => by simp [levRec, levRec_self xs]

theorem levRec_le_max : ∀ (a b : List Char), levRec a b ≤ max a.length b.length
  | [], b => by simp [levRec]
  | _ :: _, [] => by simp [levRec]
  | x :: xs, y :: ys => by
    have h3 := levRec_le_max xs ys
    have hle : levRec (x :: xs) (y :: ys) ≤ levRec xs ys + (if x = y then 0 else 1) := by
      simp only [levRec]
      exact Nat.min_le_right _ _
    have hcost : (if x = y then (0 : Nat) else 1) ≤ 1 := by split <;> simp
    simp only [List.length_cons]
    omega

theorem rowSpec_headD (aRow u : List Char) (cs : List Char) :
    (rowSpec aRow u cs).headD 0 = levRec aRow u := by
  cases cs <;> simp [rowSpec]

theorem rowSpec_eq_cons_restRow (aRow : List Char) :
    ∀ (cs u : List Char), rowSpec aRow u cs = levRec aRow u :: restRow aRow u cs
  | [], u => by simp [rowSpec, restRow]
  | c :: cs, u => by
    simp [rowSpec, restRow, rowSpec_eq_cons_restRow aRow cs (c :: u)]

theorem pyRow_spec (c1 : Char) :
    ∀ (cs u a : List Char),
      pyRow c1 (rowSpec a u cs) (levRec (c1 :: a) u) cs = restRow (c1 :: a) u cs
  | [], u, a => by simp [rowSpec, pyRow, restRow]
  | c2 :: cs, u, a => by
    have ih := pyRow_spec c1 cs (c2 :: u) a
    have hhead : (rowSpec a (c2 :: u) cs).headD 0 = levRec a (c2 :: u) := rowSpec_headD a _ cs
    have he : min (min (levRec a (c2 :: u) + 1) (levRec (c1 :: a) u + 1))
        (levRec a u + (if c1 = c2 then 0 else 1)) = levRec (c1 :: a) (c2 :: u) := by
      simp [levRec]
    simp only [rowSpec, pyRow, hhead, restRow]
    rw [he, ih]

theorem pyLevAux_spec (s2 : List Char) :
    ∀ (rest a : List Char),
      pyLevAux s2 rest (rowSpec a [] s2) a.length = rowSpec (rest.reverse ++ a) [] s2
  | [], a => by simp [pyLevAux]
  | c1 :: rest, a => by
    have hl : a.length + 1 = levRec (c1 :: a) [] := by
      simp [levRec_nil_right]
    have hrow : pyRow c1 (rowSpec a [] s2) (levRec (c1 :: a) []) s2 = restRow (c1 :: a) [] s2 :=
      pyRow_spec c1 s2 [] a
    have ih := pyLevAux_spec s2 rest (c1 :: a)
    simp only [pyLevAux, hl, hrow, ← rowSpec_eq_cons_restRow]
    simp only [List.length_cons] at ih
    rw [← hl, ih]
    simp [List.reverse_cons, List.append_assoc]

theorem rowSpec_nil_left : ∀ (cs u : List Char),
    rowSpec [] u cs = List.range' u.length (cs.length + 1)
  | [], u => by simp [rowSpec, levRec, List.range'_one]
  | c :: cs, u => by
    have ih := rowSpec_nil_left cs (c :: u)
    simp only [List.length_cons] at ih
    show levRec [] u :: rowSpec [] (c :: u) cs = List.range' u.length ((c :: cs).length + 1)
    rw [ih]
    simp only [List.length_cons]
    conv_rhs => rw [List.range'_succ]
    simp [levRec]

theorem rowSpec_getLastD (aRow : List Char) :
    ∀ (cs u : List Char) (d : Nat),
      (rowSpec aRow u cs).getLastD d = levRec aRow (cs.reverse ++ u)
  | [], u, d => by simp [rowSpec]
  | c :: cs, u, d => by
    have ih := rowSpec_getLastD aRow cs (c :: u) (levRec aRow u)
    simp only [rowSpec, List.getLastD_cons, ih, List.reverse_cons, List.append_assoc,
      List.singleton_append]

theorem levCore_eq (s1 s2 : List Char) : levCore s1 s2 = levRec s1.reverse s2.reverse := by
  unfold levCore
  by_cases h : s2.length = 0
  · have : s2 = [] := List.length_eq_zero.mp h
    subst this
    simp [levRec_nil_right]
  · rw [if_neg h]
    have hinit : List.range (s2.length + 1) = rowSpec [] [] s2 := by
      rw [rowSpec_nil_left s2 []]
      simp [List.range_eq_range']
    rw [hinit]
    have haux := pyLevAux_spec s2 s1 []
    simp only [List.length_nil, List.append_nil] at haux
    rw [haux, rowSpec_getLastD]
    simp

theorem levenshtein_eq_levRec (s1 s2 : List Char) :
    levenshtein s1 s2 = levRec s1.reverse s2.reverse := by
  unfold levenshtein
  split
  · rw [levCore_eq, levRec_comm]
  · exact levCore_eq s1 s2

/-- C7: the levenshtein function of FuzzyRegExPattern is symmetric, zero on
equal arguments, and bounded by the length of the longer argument. -/
theorem c7_levenshtein_properties (a b : List Char) :
    levenshtein a b = levenshtein b a ∧ levenshtein a a = 0 ∧
      levenshtein a b ≤ max a.length b.length := by
  refine ⟨?_, ?_, ?_⟩
  · rw [levenshtein_eq_levRec, levenshtein_eq_levRec, levRec_comm]
  · rw [levenshtein_eq_levRec, levRec_self]
  · have h := levRec_le_max a.reverse b.reverse
    rw [levenshtein_eq_levRec]
    simpa using h

/-! ## Theorems: flag bitmask (claim C2) -/

/-- C2 (code bug witnessed): the flag constants are not independent bits.
MULTI = 3 is the bitwise or of ICASE = 1 and WHOLE = 2, so an instance whose
flag set is exactly the subset containing the case-insensitive flag and the
whole-match flag reports has_flag MULTI as true, and _f2rf additionally
enables re.MULTILINE, contradicting the claimed independence of the flags. -/
theorem c2_flag_overlap :
    has_flag (ICASE ||| WHOLE) MULTI = true ∧
      f2rf (ICASE ||| WHOLE) = reIGNORECASE ||| reMULTILINE := by decide

/-! ## Theorems: FixedPattern.matches (claims C6 and C10) -/

/-- C6 (code bug witnessed): FixedPattern("a").matches("abc") does not return
the substring test result (True, None); it raises AttributeError, because the
method body invokes self.has while the class only defines has_flag. -/
theorem c6_matches_attribute_error :
    fixedMatches ⟨"a".toList, 0⟩ "abc".toList = .error .attributeError := rfl

/-- C10 (code bug witnessed): FixedPattern.matches never reaches its return
statement, so it does not return a pair with second component None as its
docstring promises; every call raises AttributeError at self.has. -/
theorem c10_matches_attribute_error :
    fixedMatches ⟨"x".toList, WHOLE⟩ "x".toList = .error .attributeError := rfl

/-! ## Theorems: fuzzy pattern rewriting (claim C8)

The infix lemmas below show that after the constructor loop no recorded word
occurs in the rewritten pattern: str.replace removes every occurrence of the
word, and a replacement can never create a new occurrence of an alphanumeric
word of length at least two, because the inserted token and the anchors
contain the non-alphanumeric barrier characters backslash, plus, caret and
dollar. -/

theorem isInfixConsCases {w : List Char} {c : Char} {t : List Char}
    (h : List.IsInfix w (c :: t)) : List.IsPrefix w (c :: t) ∨ List.IsInfix w t := by
  obtain ⟨s, u, hs⟩ := h
  cases s with
  | nil => exact Or.inl ⟨u, hs⟩
  | cons a s' =>
    simp only [List.cons_append] at hs
    injection hs with _ h2
    exact Or.inr ⟨s', u, h2⟩

theorem isInfixCons {v t : List Char} {c : Char} (h : List.IsInfix v t) :
    List.IsInfix v (c :: t) := by
  obtain ⟨a, b, hab⟩ := h
  exact ⟨c :: a, b, by simp [hab]⟩

theorem isInfixOfDrop {v s : List Char} {n : Nat} (h : List.IsInfix v (s.drop n)) :
    List.IsInfix v s := by
  obtain ⟨a, b, hab⟩ := h
  refine ⟨s.take n ++ a, b, ?_⟩
  calc (s.take n ++ a) ++ v ++ b = s.take n ++ (a ++ v ++ b) := by
        simp [List.append_assoc]
    _ = s.take n ++ s.drop n := by rw [hab]
    _ = s := List.take_append_drop n s

theorem replaceAll_step_pos {w r : List Char} {fuel : Nat} {s : List Char}
    (hc : w ≠ [] ∧ w.isPrefixOf s) :
    replaceAllFuel w r (fuel + 1) s = r ++ replaceAllFuel w r fuel (s.drop w.length) := by
  cases s <;> simp only [replaceAllFuel, if_pos hc]

theorem replaceAll_step_neg_nil {w r : List Char} {fuel : Nat}
    (hc : ¬ (w ≠ [] ∧ w.isPrefixOf ([] : List Char))) :
    replaceAllFuel w r (fuel + 1) [] = [] := by
  simp only [replaceAllFuel, if_neg hc]

theorem replaceAll_step_neg_cons {w r : List Char} {fuel : Nat} {c : Char} {s' : List Char}
    (hc : ¬ (w ≠ [] ∧ w.isPrefixOf (c :: s'))) :
    replaceAllFuel w r (fuel + 1) (c :: s') = c :: replaceAllFuel w r fuel s' := by
  simp only [replaceAllFuel, if_neg hc]

theorem prefixAlnumReplaceAll (w : List Char) :
    ∀ (fuel : Nat) (s v : List Char), v ≠ [] → v.all isAlnumAZ = true →
      List.IsPrefix v (replaceAllFuel w wtoken fuel s) → List.IsPrefix v s := by
  intro fuel
  induction fuel with
  | zero => intro s v _ _ h; exact h
  | succ fuel ih =>
    intro s v hv hall hpre
    by_cases hc : w ≠ [] ∧ w.isPrefixOf s
    · rw [replaceAll_step_pos hc] at hpre
      obtain ⟨t, ht⟩ := hpre
      cases v with
      | nil => exact absurd rfl hv
      | cons v0 v' =>
        have hv0 : v0 = '\\' := by
          have h' : v0 :: (v' ++ t) = '\\' :: ('w' :: '+' :: (replaceAllFuel w wtoken fuel (s.drop w.length))) := by
            simpa [wtoken, List.cons_append] using ht
          injection h' with h1 _
        subst hv0
        simp only [List.all_cons, Bool.and_eq_true_iff] at hall
        exact absurd hall.1 (by decide)
    · cases s with
      | nil =>
        rw [replaceAll_step_neg_nil hc] at hpre
        rw [List.prefix_nil] at hpre
        exact absurd hpre hv
      | cons c s' =>
        rw [replaceAll_step_neg_cons hc] at hpre
        cases v with
        | nil => exact absurd rfl hv
        | cons v0 v' =>
          rw [List.cons_prefix_cons] at hpre
          obtain ⟨rfl, hpre'⟩ := hpre
          cases v' with
          | nil => exact ⟨s', rfl⟩
          | cons v1 v'' =>
            have hall' : (v1 :: v'').all isAlnumAZ = true := by
              simp only [List.all_cons] at hall ⊢
              exact (Bool.and_eq_true_iff.mp hall).2
            have := ih s' (v1 :: v'') (by simp) hall' hpre'
            rw [List.cons_prefix_cons]
            exact ⟨rfl, this⟩

theorem infixWtokenSplit {v z : List Char} (h2 : 2 ≤ v.length)
    (hall : v.all isAlnumAZ = true) (h : List.IsInfix v (wtoken ++ z)) :
    List.IsInfix v z := by
  obtain ⟨s, u, hs⟩ := h
  cases v with
  | nil => simp at h2
  | cons v0 v' =>
    cases v' with
    | nil => simp at h2
    | cons v1 vr =>
      simp only [List.all_cons, Bool.and_eq_true_iff] at hall
      cases s with
      | nil =>
        have hv0 : v0 = '\\' := by
          have h' : v0 :: v1 :: (vr ++ u) = '\\' :: 'w' :: '+' :: z := by
            simpa [wtoken, List.cons_append] using hs
          injection h' with h1 _
        rw [hv0] at hall
        exact absurd hall.1 (by decide)
      | cons a s1 =>
        cases s1 with
        | nil =>
          have hv1 : v1 = '+' := by
            have h' : a :: v0 :: v1 :: (vr ++ u) = '\\' :: 'w' :: '+' :: z := by
              simpa [wtoken, List.cons_append] using hs
            injection h' with _ h'
            injection h' with _ h'
            injection h' with h1 _
          rw [hv1] at hall
          exact absurd hall.2.1 (by decide)
        | cons b s2 =>
          cases s2 with
          | nil =>
            have hv0 : v0 = '+' := by
              have h' : a :: b :: v0 :: v1 :: (vr ++ u) = '\\' :: 'w' :: '+' :: z := by
                simpa [wtoken, List.cons_append] using hs
              injection h' with _ h'
              injection h' with _ h'
              injection h' with h1 _
            rw [hv0] at hall
            exact absurd hall.1 (by decide)
          | cons c s' =>
            have h' : a :: b :: c :: (s' ++ (v0 :: v1 :: vr) ++ u) = '\\' :: 'w' :: '+' :: z := by
              simpa [wtoken, List.cons_append, List.append_assoc] using hs
            injection h' with _ h'
            injection h' with _ h'
            injection h' with _ h'
            exact ⟨s', u, h'⟩

theorem replaceAllFuelNoOccur (w : List Char) (h2 : 2 ≤ w.length)
    (hall : w.all isAlnumAZ = true) :
    ∀ (fuel : Nat) (s : List Char), s.length ≤ fuel →
      ¬ List.IsInfix w (replaceAllFuel w wtoken fuel s) := by
  intro fuel
  induction fuel with
  | zero =>
    intro s hs hinf
    have hnil : s = [] := by
      cases s with
      | nil => rfl
      | cons c s' => simp at hs
    rw [replaceAllFuel, hnil] at hinf
    obtain ⟨a, b, hab⟩ := hinf
    have := (List.append_eq_nil.mp ((List.append_eq_nil.mp hab).1)).2
    rw [this] at h2
    simp at h2
  | succ fuel ih =>
    intro s hs hinf
    by_cases hc : w ≠ [] ∧ w.isPrefixOf s
    · rw [replaceAll_step_pos hc] at hinf
      have hinf' := infixWtokenSplit h2 hall hinf
      have hlen : (s.drop w.length).length ≤ fuel := by
        rw [List.length_drop]
        omega
      exact ih (s.drop w.length) hlen hinf'
    · cases s with
      | nil =>
        rw [replaceAll_step_neg_nil hc] at hinf
        obtain ⟨a, b, hab⟩ := hinf
        have := (List.append_eq_nil.mp ((List.append_eq_nil.mp hab).1)).2
        rw [this] at h2
        simp at h2
      | cons c s' =>
        rw [replaceAll_step_neg_cons hc] at hinf
        rcases isInfixConsCases hinf with hpre | hinf'
        · cases w with
          | nil => simp at h2
          | cons w0 w' =>
            rw [List.cons_prefix_cons] at hpre
            obtain ⟨rfl, hpre'⟩ := hpre
            have hw' : w' ≠ [] := by
              cases w' with
              | nil => simp at h2
              | cons _ _ => simp
            have hall' : w'.all isAlnumAZ = true := by
              simp only [List.all_cons, Bool.and_eq_true_iff] at hall
              exact hall.2
            have hps' := prefixAlnumReplaceAll (w0 :: w') fuel s' w' hw' hall' hpre'
            have : (w0 :: w').isPrefixOf (w0 :: s') = true := by
              rw [List.isPrefixOf_iff_prefix, List.cons_prefix_cons]
              exact ⟨rfl, hps'⟩
            exact hc ⟨by simp, this⟩
        · refine ih s' ?_ hinf'
          simp only [List.length_cons] at hs
          omega

theorem replaceAllFuelPreserve (v w : List Char) (h2 : 2 ≤ v.length)
    (hall : v.all isAlnumAZ = true) :
    ∀ (fuel : Nat) (s : List Char), ¬ List.IsInfix v s →
      ¬ List.IsInfix v (replaceAllFuel w wtoken fuel s) := by
  intro fuel
  induction fuel with
  | zero => intro s hv hinf; exact hv hinf
  | succ fuel ih =>
    intro s hv hinf
    by_cases hc : w ≠ [] ∧ w.isPrefixOf s
    · rw [replaceAll_step_pos hc] at hinf
      have hinf' := infixWtokenSplit h2 hall hinf
      have hnd : ¬ List.IsInfix v (s.drop w.length) := fun h => hv (isInfixOfDrop h)
      exact ih (s.drop w.length) hnd hinf'
    · cases s with
      | nil =>
        rw [replaceAll_step_neg_nil hc] at hinf
        exact hv hinf
      | cons c s' =>
        rw [replaceAll_step_neg_cons hc] at hinf
        rcases isInfixConsCases hinf with hpre | hinf'
        · cases v with
          | nil => simp at h2
          | cons v0 v' =>
            rw [List.cons_prefix_cons] at hpre
            obtain ⟨rfl, hpre'⟩ := hpre
            have hv' : v' ≠ [] := by
              cases v' with
              | nil => simp at h2
              | cons _ _ => simp
            have hall' : v'.all isAlnumAZ = true := by
              simp only [List.all_cons, Bool.and_eq_true_iff] at hall
              exact hall.2
            have hps' := prefixAlnumReplaceAll w fuel s' v' hv' hall' hpre'
            refine hv (List.IsPrefix.isInfix ?_)
            rw [List.cons_prefix_cons]
            exact ⟨rfl, hps'⟩
        · exact ih s' (fun h => hv (isInfixCons h)) hinf'

theorem fuzzyLoop_snd : ∀ (l : List (Nat × List Char)) (pat : List Char)
    (ws : List (Nat × List Char)), (fuzzyLoop l pat ws).2 = ws ++ l
  | [], pat, ws => by simp [fuzzyLoop]
  | (i, word) :: rest, pat, ws => by
    rw [fuzzyLoop, fuzzyLoop_snd rest _ (ws ++ [(i, word)])]
    simp

theorem fuzzyLoopPreserve (v : List Char) (h2 : 2 ≤ v.length)
    (hall : v.all isAlnumAZ = true) :
    ∀ (l : List (Nat × List Char)) (pat : List Char) (ws : List (Nat × List Char)),
      ¬ List.IsInfix v pat → ¬ List.IsInfix v (fuzzyLoop l pat ws).1
  | [], pat, ws => fun hv => hv
  | (i, word) :: rest, pat, ws => fun hv => by
    rw [fuzzyLoop]
    exact fuzzyLoopPreserve v h2 hall rest _ _
      (replaceAllFuelPreserve v word h2 hall pat.length pat hv)

theorem fuzzyLoopNoOccur :
    ∀ (l : List (Nat × List Char)) (pat : List Char) (ws : List (Nat × List Char)),
      (∀ iw ∈ l, 2 ≤ iw.2.length ∧ iw.2.all isAlnumAZ = true) →
      ∀ iw ∈ l, ¬ List.IsInfix iw.2 (fuzzyLoop l pat ws).1
  | [], pat, ws => fun _ iw h => absurd h (List.not_mem_nil iw)
  | (i, word) :: rest, pat, ws => fun hws iw hmem => by
    have hword := hws (i, word) (List.mem_cons_self _ _)
    rcases List.mem_cons.mp hmem with heq | hrest
    · rw [heq, fuzzyLoop]
      exact fuzzyLoopPreserve word hword.1 hword.2 rest _ _
        (replaceAllFuelNoOccur word hword.1 hword.2 pat.length pat le_rfl)
    · rw [fuzzyLoop]
      exact fuzzyLoopNoOccur rest _ _ (fun x hx => hws x (List.mem_cons_of_mem _ hx)) iw hrest

theorem findallAuxWords : ∀ (s : List Char) (p2 p1 : Option Char) (acc : List Char)
    (ok : Bool), ∀ w ∈ findallAux p2 p1 acc ok s, 2 ≤ w.length ∧ w.all isAlnumAZ = true
  | [], p2, p1, acc, ok => by
    intro w hw
    rw [findallAux] at hw
    split at hw
    · next hcond =>
      simp only [List.mem_singleton] at hw
      subst hw
      simp only [Bool.and_eq_true_iff, decide_eq_true_eq] at hcond
      exact ⟨by simpa using hcond.1.2, by simpa [List.all_reverse] using hcond.2⟩
    · simp at hw
  | c :: rest, p2, p1, acc, ok => by
    intro w hw
    rw [findallAux] at hw
    split at hw
    · split at hw
      · exact findallAuxWords rest _ _ _ _ w hw
      · exact findallAuxWords rest _ _ _ _ w hw
    · split at hw
      · next hcond =>
        rcases List.mem_cons.mp hw with heq | hrest
        · subst heq
          simp only [Bool.and_eq_true_iff, decide_eq_true_eq] at hcond
          exact ⟨by simpa using hcond.1.2, by simpa [List.all_reverse] using hcond.2⟩
        · exact findallAuxWords rest _ _ _ _ w hrest
      · exact findallAuxWords rest _ _ _ _ w hw

theorem findallWords (p : List Char) :
    ∀ w ∈ findall p, 2 ≤ w.length ∧ w.all isAlnumAZ = true :=
  findallAuxWords p none none [] false

theorem snd_mem_of_mem_enum {α : Type} {l : List α} {iw : Nat × α} (h : iw ∈ l.enum) :
    iw.2 ∈ l := by
  rw [← List.enum_map_snd l]
  exact List.mem_map_of_mem Prod.snd h

theorem mem_enum_of_mem {α : Type} {l : List α} {w : α} (h : w ∈ l) :
    ∃ i, (i, w) ∈ l.enum := by
  rw [← List.enum_map_snd l] at h
  obtain ⟨iw, hmem, heq⟩ := List.mem_map.mp h
  exact ⟨iw.1, by rw [← heq]; exact hmem⟩

theorem isInfixSingletonSnoc {w t : List Char} {c : Char} (hw : w ≠ [])
    (h : List.IsInfix w (t ++ [c])) : List.IsInfix w t ∨ c ∈ w := by
  obtain ⟨a, b, hab⟩ := h
  rcases List.eq_nil_or_concat b with rfl | ⟨b', d, rfl⟩
  · rcases List.eq_nil_or_concat w with rfl | ⟨w', e, rfl⟩
    · exact absurd rfl hw
    · right
      have h' : (a ++ w') ++ [e] = t ++ [c] := by
        simpa [List.concat_eq_append, List.append_assoc] using hab
      have he := List.append_inj_right' h' (by simp)
      have : e = c := by simpa using he
      subst this
      simp [List.concat_eq_append]
  · left
    have h' : (a ++ w ++ b') ++ [d] = t ++ [c] := by
      simpa [List.concat_eq_append, List.append_assoc] using hab
    have ht := List.append_inj_left' h' (by simp)
    exact ⟨a, b', ht⟩

theorem fuzzyWrapShift {w pat : List Char} (hall : w.all isAlnumAZ = true) (hw : w ≠ [])
    (h : List.IsInfix w ('^' :: pat ++ ['$'])) : List.IsInfix w pat := by
  rcases isInfixConsCases h with hpre | hinf
  · obtain ⟨t, ht⟩ := hpre
    cases w with
    | nil => exact absurd rfl hw
    | cons w0 w' =>
      have h0 : w0 = '^' := by
        simp only [List.cons_append] at ht
        injection ht with h1 _
      rw [h0] at hall
      simp only [List.all_cons, Bool.and_eq_true_iff] at hall
      exact absurd hall.1 (by decide)
  · rcases isInfixSingletonSnoc hw hinf with h' | hc
    · exact h'
    · have := (List.all_eq_true.mp hall) '$' hc
      exact absurd this (by decide)

/-- C8 (amended): construction of a FuzzyRegExPattern records each maximal
alphanumeric run of length at least two (not escaped, not named-capture
syntax) in the word table at consecutive indices 0, 1, 2, … in order of
appearance, and replaces every literal occurrence of the word currently in
the pattern string by the generic token, so no recorded word remains anywhere
in the stored pattern (repeated words are recorded again at later indices,
with nothing left to replace). -/
theorem c8_fuzzy_rewrite (p : List Char) (flags : Nat) :
    (fuzzyInit p flags).2 = (findall p).enum ∧
      ∀ w ∈ findall p, ¬ List.IsInfix w (fuzzyInit p flags).1 := by
  constructor
  · show (fuzzyLoop (findall p).enum p []).2 = (findall p).enum
    rw [fuzzyLoop_snd]
    simp
  · intro w hw hinf
    have hword := findallWords p w hw
    have hw0 : w ≠ [] := by
      cases w with
      | nil => simp at hword
      | cons _ _ => simp
    have hinf' : List.IsInfix w (fuzzyLoop (findall p).enum p []).1 := by
      revert hinf
      show List.IsInfix w (fuzzyInit p flags).1 → _
      unfold fuzzyInit
      split
      · exact fun h => fuzzyWrapShift hword.2 hw0 h
      · exact id
    obtain ⟨i, hi⟩ := mem_enum_of_mem hw
    exact fuzzyLoopNoOccur (findall p).enum p []
      (fun iw hiw => findallWords p iw.2 (snd_mem_of_mem_enum hiw)) (i, w) hi hinf'

/-- C8 witness: the amended theorem applied to the concrete pattern
ab x_ab_y, whose single recorded word ab no longer occurs in the rewritten
pattern. -/
theorem c8_fuzzy_rewrite_witness :
    (fuzzyInit "ab x_ab_y".toList 0).2 = (findall "ab x_ab_y".toList).enum ∧
      ¬ List.IsInfix "ab".toList (fuzzyInit "ab x_ab_y".toList 0).1 :=
  ⟨(c8_fuzzy_rewrite "ab x_ab_y".toList 0).1,
   (c8_fuzzy_rewrite "ab x_ab_y".toList 0).2 "ab".toList (by decide)⟩

/-- C8 counterexample: on the pattern ab x_ab_y the claim as stated predicts
that only the first occurrence of ab is replaced, leaving the rewritten
pattern \w+ x_ab_y; the source replaces every occurrence, producing
\w+ x_\w+_y. -/
theorem c8_counterexample :
    (fuzzyInit "ab x_ab_y".toList 0).1 = "\\w+ x_\\w+_y".toList ∧
      specRewrite "ab x_ab_y".toList = "\\w+ x_ab_y".toList ∧
      (fuzzyInit "ab x_ab_y".toList 0).1 ≠ specRewrite "ab x_ab_y".toList := by
  refine ⟨by decide, by decide, by decide⟩

/-! ## Theorems: distance (claim C1) and flag parsing (claim C5) -/

/-- C1 (code bug witnessed): for the fuzzy pattern ab (word table {0: ab})
and the line ab cd, whose word sequence is longer than the table, distance
does not add the extra word length as a penalty: the lookup
word1 = self.words[i] runs before the membership test, so the call raises
KeyError at i = 1.  The claimed behaviour would have produced the total
0 + len(cd) = 2. -/
theorem c1_distance_keyerror :
    distance (fuzzyInit "ab".toList 0).2 0 "ab cd".toList = .error .keyError := by
  rfl

/-- C5 (code bug witnessed): parsing /foo/a:xyz, whose fuzzy flag token has a
malformed integer parameter, does not fall back to the default threshold 3:
the integer conversion of the text after the colon raises ValueError, which
the surrounding handler (which catches only IndexError) does not stop, so
from_string fails instead of returning a FuzzyRegExPattern. -/
theorem c5_fuzzy_flag_valueerror :
    from_string "/foo/a:xyz".toList 0 = .error .valueError := by
  rfl

/-- C5 contrast: the fallback the claim describes does exist, but only for a
missing parameter (IndexError), as for the bare token a. -/
theorem c5_fuzzy_flag_default_on_missing :
    from_string "/foo/a".toList 0 = .ok (.fuzzyPat "foo".toList 0 3) := by
  rfl

/-! ## Theorems: the scanner (claims C3, C4, C9) -/

/-- C3 (code bug witnessed): scanning a one-line file with maxResults = 0
does not return an empty sequence of records: the early stop executes a bare
return, so search returns None (here none) instead of a list. -/
theorem c3_early_return_none :
    search "f".toList (.fixedStr "x".toList) none false 0 ["x\n".toList] = none := by
  rfl

/-- C3 contrast: the same scan with maxResults = -1 returns the full list of
records (one per matching line, two in this buffer). -/
theorem c3_unlimited_returns_all :
    (search "f".toList (.fixedStr "x".toList) none false (-1)
        ["x\n".toList, "y".toList, "x".toList]).map List.length = some 2 := by
  rfl

/-- C4 (code bug witnessed): with the fixed-string anchor b the emission in
_backtrack never increments results, so a scan with maxResults = 1 of a
three-line buffer emits two records: maxResults does not bound the output in
fixed-anchor mode. -/
theorem c4_fixed_anchor_no_increment :
    (search "f".toList (.fixedStr "a".toList) (some (.fixedStr "b".toList)) false 1
        ["b".toList, "a".toList, "a".toList]).map List.length = some 2 ∧
      (1 : Int) < 2 := by
  exact ⟨rfl, by decide⟩

/-- C9 counterexample: scanning forward from the trigger start to the anchor
END, the record stores second_line as the raw line END x with its trailing
newline, which differs from its normalized (rstripped) form: the line was
evaluated and stored before any stripping, refuting the claim that every line
is normalized before matching and storage. -/
theorem c9_counterexample :
    ((search "f".toList (.fixedStr "start".toList) (some (.fixedStr "END".toList)) true (-1)
        ["start\n".toList, "END x\n".toList]).getD []).map (fun r => dget r kSecondLine)
      = [some (.s "END x\n".toList)] ∧
      ((search "f".toList (.fixedStr "start".toList) (some (.fixedStr "END".toList)) true (-1)
        ["start\n".toList, "END x\n".toList]).getD []).map (fun r => dget r kContext)
      = [some (.s "start\nEND x\n".toList)] ∧
      rstrip "END x\n".toList ≠ "END x\n".toList := by
  exact ⟨rfl, rfl, by decide⟩

/-! ## Theorems: line normalization in the scanner (claim C9, amended) -/

theorem dget_cons_self {k : List Char} {v : Val} {g : Groups} :
    dget ((k, v) :: g) k = some v := by
  simp [dget, List.lookup]

theorem dget_cons_ne {k k' : List Char} {v : Val} {g : Groups} (h : ¬ k' = k) :
    dget ((k, v) :: g) k' = dget g k' := by
  have hb : (k' == k) = false := by
    simpa using h
  simp [dget, List.lookup, hb]

theorem dget_cons_pair_ne {kv : List Char × Val} {k' : List Char} {g : Groups}
    (h : ¬ k' = kv.1) : dget (kv :: g) k' = dget g k' := by
  obtain ⟨a, b⟩ := kv
  exact dget_cons_ne h

theorem dget_updates_disjoint {g : Groups} :
    ∀ (caps : Groups) (k : List Char), (∀ kv ∈ caps, ¬ kv.1 = k) →
      dget (updates g caps) k = dget g k := by
  suffices h : ∀ (caps : Groups) (g' : Groups) (k : List Char), (∀ kv ∈ caps, ¬ kv.1 = k) →
      dget (caps.foldl (fun a kv => kv :: a) g') k = dget g' k by
    intro caps k hk
    exact h caps g k hk
  intro caps
  induction caps with
  | nil => intro g' k _; rfl
  | cons kv caps ih =>
    intro g' k hk
    show dget (caps.foldl (fun a kv => kv :: a) (kv :: g')) k = dget g' k
    rw [ih (kv :: g') k (fun x hx => hk x (List.mem_cons_of_mem _ hx))]
    exact dget_cons_pair_ne (fun heq => hk kv (List.mem_cons_self _ _) heq.symm)

theorem dget_btStep_secondLine {forwards : Bool} {lines : List (List Char)} {i : Nat}
    {g : Groups} : dget (btStep forwards lines i g) kSecondLine
      = some (.s (lines.getD i [])) := by
  simp only [btStep, dset]
  rw [dget_cons_ne (by decide), dget_cons_self]

theorem dget_btStep_secondLineNum {forwards : Bool} {lines : List (List Char)} {i : Nat}
    {g : Groups} : dget (btStep forwards lines i g) kSecondLineNum = some (.n i) := by
  simp only [btStep, dset]
  rw [dget_cons_self]

theorem dget_btStep_firstLine {forwards : Bool} {lines : List (List Char)} {i : Nat}
    {g : Groups} : dget (btStep forwards lines i g) kFirstLine = dget g kFirstLine := by
  simp only [btStep, dset]
  rw [dget_cons_ne (by decide), dget_cons_ne (by decide), dget_cons_ne (by decide)]

theorem dget_btStep_firstLineNum {forwards : Bool} {lines : List (List Char)} {i : Nat}
    {g : Groups} : dget (btStep forwards lines i g) kFirstLineNum
      = dget g kFirstLineNum := by
  simp only [btStep, dset]
  rw [dget_cons_ne (by decide), dget_cons_ne (by decide), dget_cons_ne (by decide)]

theorem backtrackLoop_fixed_cons {p : List Char} {forwards : Bool}
    {lines : List (List Char)} {i : Nat} {rest : List Nat} {g : Groups} :
    backtrackLoop (.fixedStr p) forwards lines (i :: rest) g =
      if isSubstrOf p (lines.getD i []) then
        (btStep forwards lines i g, some (btStep forwards lines i g))
      else backtrackLoop (.fixedStr p) forwards lines rest (btStep forwards lines i g) :=
  rfl

theorem backtrackLoop_regex_cons {f : List Char → Option Groups} {forwards : Bool}
    {lines : List (List Char)} {i : Nat} {rest : List Nat} {g : Groups} :
    backtrackLoop (.regex f) forwards lines (i :: rest) g =
      match f (lines.getD i []) with
      | some caps =>
        (incrResults (updates (btStep forwards lines i g) caps),
         some (updates (btStep forwards lines i g) caps))
      | none => backtrackLoop (.regex f) forwards lines rest (btStep forwards lines i g) :=
  rfl

theorem backtrack_emit {sp : Pat} (hsp : GoodPat sp) (forwards : Bool)
    (lines : List (List Char)) :
    ∀ (idxs : List Nat) (g : Groups) (r : Groups),
      (backtrackLoop sp forwards lines idxs g).2 = some r →
      ∃ i ∈ idxs,
        dget r kSecondLine = some (.s (lines.getD i [])) ∧
        dget r kSecondLineNum = some (.n i) ∧
        dget r kFirstLine = dget g kFirstLine ∧
        dget r kFirstLineNum = dget g kFirstLineNum := by
  intro idxs
  induction idxs with
  | nil => intro g r h; simp [backtrackLoop] at h
  | cons i rest ih =>
    intro g r h
    cases sp with
    | fixedStr p =>
      rw [backtrackLoop_fixed_cons] at h
      split at h
      · obtain rfl : _ = r := Option.some.inj h
        refine ⟨i, List.mem_cons_self _ _, dget_btStep_secondLine,
          dget_btStep_secondLineNum, ?_, ?_⟩
        · rw [dget_btStep_firstLine]
        · rw [dget_btStep_firstLineNum]
      · obtain ⟨i', hi', h1, h2, h3, h4⟩ := ih _ r h
        refine ⟨i', List.mem_cons_of_mem _ hi', h1, h2, ?_, ?_⟩
        · rw [h3, dget_btStep_firstLine]
        · rw [h4, dget_btStep_firstLineNum]
    | regex f =>
      rw [backtrackLoop_regex_cons] at h
      cases hfl : f (lines.getD i []) with
      | some caps =>
        rw [hfl] at h
        obtain rfl : _ = r := Option.some.inj h
        have hcaps : ∀ kv ∈ caps, kv.1 ∉ scannerKeys := hsp _ caps hfl
        have hdis : ∀ (k : List Char), k ∈ scannerKeys → ∀ kv ∈ caps, ¬ kv.1 = k := by
          intro k hkmem kv hkv heq
          exact hcaps kv hkv (heq ▸ hkmem)
        refine ⟨i, List.mem_cons_self _ _, ?_, ?_, ?_, ?_⟩
        · rw [dget_updates_disjoint caps kSecondLine (hdis _ (by decide)),
            dget_btStep_secondLine]
        · rw [dget_updates_disjoint caps kSecondLineNum (hdis _ (by decide)),
            dget_btStep_secondLineNum]
        · rw [dget_updates_disjoint caps kFirstLine (hdis _ (by decide)),
            dget_btStep_firstLine]
        · rw [dget_updates_disjoint caps kFirstLineNum (hdis _ (by decide)),
            dget_btStep_firstLineNum]
      | none =>
        rw [hfl] at h
        obtain ⟨i', hi', h1, h2, h3, h4⟩ := ih _ r h
        refine ⟨i', List.mem_cons_of_mem _ hi', h1, h2, ?_, ?_⟩
        · rw [h3, dget_btStep_firstLine]
        · rw [h4, dget_btStep_firstLineNum]

theorem dget_initGroups_firstLine {file : List Char} {lines : List (List Char)} {idx : Nat}
    {results : Val} : dget (initGroups file lines idx results) kFirstLine
      = some (.s (lines.getD idx [])) := by
  simp only [initGroups]
  rw [dget_cons_ne (by decide), dget_cons_self]

theorem dget_initGroups_firstLineNum {file : List Char} {lines : List (List Char)}
    {idx : Nat} {results : Val} : dget (initGroups file lines idx results) kFirstLineNum
      = some (.n idx) := by
  simp only [initGroups]
  rw [dget_cons_ne (by decide), dget_cons_ne (by decide), dget_cons_self]

theorem found_result_records {sp : Pat} (hsp : GoodPat sp) (forwards : Bool)
    (lines : List (List Char)) (idx : Nat) (g : Groups) (ms : List Groups) :
    ∀ r ∈ (found_result (some sp) forwards lines idx g ms).2,
      r ∈ ms ∨
      ∃ i ∈ btIndices forwards lines.length idx,
        dget r kSecondLine = some (.s (lines.getD i [])) ∧
        dget r kSecondLineNum = some (.n i) ∧
        dget r kFirstLine = dget g kFirstLine ∧
        dget r kFirstLineNum = dget g kFirstLineNum := by
  intro r hr
  have hunfold : (found_result (some sp) forwards lines idx g ms).2 =
      appendEmission ms (backtrackLoop sp forwards lines (btIndices forwards lines.length idx)
        (dset kContext (.s (lines.getD idx [])) g)).2 := rfl
  rw [hunfold] at hr
  cases hbt : (backtrackLoop sp forwards lines (btIndices forwards lines.length idx)
      (dset kContext (.s (lines.getD idx [])) g)).2 with
  | none =>
    rw [hbt] at hr
    exact Or.inl hr
  | some rec0 =>
    rw [hbt] at hr
    rcases List.mem_append.mp hr with hin | hone
    · exact Or.inl hin
    · have hr0 : r = rec0 := by simpa using hone
      subst hr0
      obtain ⟨i, hi, h1, h2, h3, h4⟩ := backtrack_emit hsp forwards lines _ _ r hbt
      right
      refine ⟨i, hi, h1, h2, ?_, ?_⟩
      · rw [h3]
        show dget ((kContext, Val.s (lines.getD idx [])) :: g) kFirstLine = dget g kFirstLine
        rw [dget_cons_ne (by decide)]
      · rw [h4]
        show dget ((kContext, Val.s (lines.getD idx [])) :: g) kFirstLineNum
          = dget g kFirstLineNum
        rw [dget_cons_ne (by decide)]

theorem searchLoop_succ_fixed {file p : List Char} {sp : Option Pat} {fwd : Bool} {mr : Int}
    {fuel : Nat} {lines : List (List Char)} {idx : Nat} {g : Groups} {ms : List Groups} :
    searchLoop file (.fixedStr p) sp fwd mr (fuel + 1) lines idx g ms =
      if idx < lines.length then
        if mr > -1 ∧ valInt ((dget g kResults).getD (.n 0)) ≥ mr then none
        else
          if isSubstrOf p ((stripAt lines idx).getD idx []) then
            searchLoop file (.fixedStr p) sp fwd mr fuel (stripAt lines idx) (idx + 1)
              (found_result sp fwd (stripAt lines idx) idx
                (initGroups file (stripAt lines idx) idx
                  ((dget g kResults).getD (.n 0))) ms).1
              (found_result sp fwd (stripAt lines idx) idx
                (initGroups file (stripAt lines idx) idx
                  ((dget g kResults).getD (.n 0))) ms).2
          else
            searchLoop file (.fixedStr p) sp fwd mr fuel (stripAt lines idx) (idx + 1)
              (initGroups file (stripAt lines idx) idx ((dget g kResults).getD (.n 0))) ms
      else some ms := rfl

theorem searchLoop_succ_regex {file : List Char} {f : List Char → Option Groups}
    {sp : Option Pat} {fwd : Bool} {mr : Int} {fuel : Nat} {lines : List (List Char)}
    {idx : Nat} {g : Groups} {ms : List Groups} :
    searchLoop file (.regex f) sp fwd mr (fuel + 1) lines idx g ms =
      if idx < lines.length then
        if mr > -1 ∧ valInt ((dget g kResults).getD (.n 0)) ≥ mr then none
        else
          match f ((stripAt lines idx).getD idx []) with
          | some caps =>
            searchLoop file (.regex f) sp fwd mr fuel (stripAt lines idx) (idx + 1)
              (found_result sp fwd (stripAt lines idx) idx
                (updates (initGroups file (stripAt lines idx) idx
                  ((dget g kResults).getD (.n 0))) caps) ms).1
              (found_result sp fwd (stripAt lines idx) idx
                (updates (initGroups file (stripAt lines idx) idx
                  ((dget g kResults).getD (.n 0))) caps) ms).2
          | none =>
            searchLoop file (.regex f) sp fwd mr fuel (stripAt lines idx) (idx + 1)
              (initGroups file (stripAt lines idx) idx ((dget g kResults).getD (.n 0))) ms
      else some ms := rfl

theorem stripAt_invariant {orig lines : List (List Char)} {idx : Nat}
    (hidx : idx < lines.length)
    (hlines : ∀ j, lines.getD j [] = if j < idx then rstrip (orig.getD j [])
      else orig.getD j []) :
    ∀ j, (stripAt lines idx).getD j [] = if j < idx + 1 then rstrip (orig.getD j [])
      else orig.getD j [] := by
  intro j
  by_cases hj : idx = j
  · subst hj
    have h1 : (stripAt lines idx).getD idx [] = rstrip (lines.getD idx []) := by
      rw [stripAt, List.getD_eq_getElem?_getD, List.getElem?_set, if_pos rfl, if_pos hidx]
      rfl
    have h2 : lines.getD idx [] = orig.getD idx [] := by
      rw [hlines idx, if_neg (by omega)]
    rw [h1, h2, if_pos (by omega)]
  · have h1 : (stripAt lines idx).getD j [] = lines.getD j [] := by
      rw [stripAt, List.getD_eq_getElem?_getD, List.getElem?_set, if_neg hj,
        ← List.getD_eq_getElem?_getD]
    rw [h1, hlines j]
    by_cases hj2 : j < idx
    · rw [if_pos hj2, if_pos (by omega)]
    · rw [if_neg hj2, if_neg (by omega)]

theorem emitted_record_prop {sp : Pat} (hsp : GoodPat sp) {fwd : Bool}
    {orig lines' : List (List Char)} {idx : Nat} {g0 : Groups} {ms : List Groups}
    (hstrip : ∀ j, lines'.getD j [] = if j < idx + 1 then rstrip (orig.getD j [])
      else orig.getD j [])
    (hfl : dget g0 kFirstLine = some (.s (lines'.getD idx [])))
    (hfln : dget g0 kFirstLineNum = some (.n idx))
    (hms : ∀ r ∈ ms, RecordProp fwd orig r) :
    ∀ r ∈ (found_result (some sp) fwd lines' idx g0 ms).2, RecordProp fwd orig r := by
  intro r hr
  rcases found_result_records hsp fwd lines' idx g0 ms r hr with hin | ⟨i, hi, h1, h2, h3, h4⟩
  · exact hms r hin
  · intro i0 j0 hsl hfl2
    have hii : i0 = i := by
      rw [h2] at hsl
      have := Val.n.inj (Option.some.inj hsl).symm
      exact_mod_cast this
    have hjj : j0 = idx := by
      rw [h4, hfln] at hfl2
      have := Val.n.inj (Option.some.inj hfl2).symm
      exact_mod_cast this
    rw [hii, hjj]
    constructor
    · rw [h1]
      cases fwd with
      | true =>
        have hmem : idx + 1 ≤ i := by
          have := (List.mem_range'_1.mp (by simpa [btIndices] using hi)).1
          omega
        rw [hstrip i, if_neg (by omega)]
        simp
      | false =>
        have hmem : i < idx := by
          have := List.mem_range.mp (List.mem_reverse.mp (by simpa [btIndices] using hi))
          omega
        rw [hstrip i, if_pos (by omega)]
        simp
    · rw [h3, hfl, hstrip idx, if_pos (by omega)]

theorem searchLoop_records {fp sp : Pat} (hfp : GoodPat fp) (hsp : GoodPat sp)
    (file : List Char) (fwd : Bool) (mr : Int) (orig : List (List Char)) :
    ∀ (fuel : Nat) (lines : List (List Char)) (idx : Nat) (g : Groups) (ms : List Groups),
      (∀ j, lines.getD j [] = if j < idx then rstrip (orig.getD j [])
        else orig.getD j []) →
      (∀ r ∈ ms, RecordProp fwd orig r) →
      ∀ r ∈ (searchLoop file fp (some sp) fwd mr fuel lines idx g ms).getD [],
        RecordProp fwd orig r := by
  intro fuel
  induction fuel with
  | zero =>
    intro lines idx g ms _ hms r hr
    exact hms r hr
  | succ fuel ih =>
    intro lines idx g ms hlines hms r hr
    cases fp with
    | fixedStr p =>
      rw [searchLoop_succ_fixed] at hr
      by_cases hidx : idx < lines.length
      · rw [if_pos hidx] at hr
        by_cases hmr : mr > -1 ∧ valInt ((dget g kResults).getD (.n 0)) ≥ mr
        · rw [if_pos hmr] at hr
          simp at hr
        · rw [if_neg hmr] at hr
          have hstrip := stripAt_invariant hidx hlines
          by_cases hsub : isSubstrOf p ((stripAt lines idx).getD idx []) = true
          · rw [if_pos hsub] at hr
            refine ih (stripAt lines idx) (idx + 1) _ _ hstrip ?_ r hr
            exact emitted_record_prop hsp hstrip dget_initGroups_firstLine
              dget_initGroups_firstLineNum hms
          · rw [if_neg hsub] at hr
            exact ih (stripAt lines idx) (idx + 1) _ _ hstrip hms r hr
      · rw [if_neg hidx] at hr
        exact hms r hr
    | regex f =>
      rw [searchLoop_succ_regex] at hr
      by_cases hidx : idx < lines.length
      · rw [if_pos hidx] at hr
        by_cases hmr : mr > -1 ∧ valInt ((dget g kResults).getD (.n 0)) ≥ mr
        · rw [if_pos hmr] at hr
          simp at hr
        · rw [if_neg hmr] at hr
          have hstrip := stripAt_invariant hidx hlines
          cases hfl : f ((stripAt lines idx).getD idx []) with
          | some caps =>
            rw [hfl] at hr
            have hcaps : ∀ kv ∈ caps, kv.1 ∉ scannerKeys := hfp _ caps hfl
            have hdis : ∀ (k : List Char), k ∈ scannerKeys → ∀ kv ∈ caps, ¬ kv.1 = k := by
              intro k hkmem kv hkv heq
              exact hcaps kv hkv (heq ▸ hkmem)
            refine ih (stripAt lines idx) (idx + 1) _ _ hstrip ?_ r hr
            refine emitted_record_prop hsp hstrip ?_ ?_ hms
            · rw [dget_updates_disjoint caps kFirstLine (hdis _ (by decide)),
                dget_initGroups_firstLine]
            · rw [dget_updates_disjoint caps kFirstLineNum (hdis _ (by decide)),
                dget_initGroups_firstLineNum]
          | none =>
            rw [hfl] at hr
            exact ih (stripAt lines idx) (idx + 1) _ _ hstrip hms r hr
      · rw [if_neg hidx] at hr
        exact hms r hr

/-- C9 (amended): the scanner normalizes a line by stripping trailing
whitespace when the outer walk reaches it, before the trigger pattern is
evaluated against it, and the stored first_line is this normalized form.  An
anchor search stepping backward therefore also sees and stores normalized
lines; but an anchor search stepping forward reads lines the outer walk has
not yet visited, so it evaluates the anchor on, and stores as second_line,
the raw line with its trailing whitespace intact.  (Stated for patterns whose
named captures do not collide with the scanner keys.) -/
theorem c9_normalization (orig : List (List Char)) (file : List Char) (fp sp : Pat)
    (fwd : Bool) (mr : Int) (hfp : GoodPat fp) (hsp : GoodPat sp) :
    ∀ r ∈ (search file fp (some sp) fwd mr orig).getD [], ∀ (i j : Nat),
      dget r kSecondLineNum = some (.n i) →
      dget r kFirstLineNum = some (.n j) →
      dget r kSecondLine
          = some (.s (if fwd then orig.getD i [] else rstrip (orig.getD i []))) ∧
        dget r kFirstLine = some (.s (rstrip (orig.getD j []))) := by
  intro r hr
  have h := searchLoop_records hfp hsp file fwd mr orig orig.length orig 0
    [(kResults, .n 0)] [] (fun j => by rw [if_neg (by omega)]) (fun r hr => by simp at hr)
    r hr
  exact h

/-- C9 witness: the amended theorem applied to the forward scan of
["start\n", "END x\n"] with fixed trigger start and fixed anchor END; the
record stores the raw second line and the stripped first line. -/
theorem c9_normalization_witness :
    dget (((search "f".toList (.fixedStr "start".toList) (some (.fixedStr "END".toList))
        true (-1) ["start\n".toList, "END x\n".toList]).getD []).getD 0 []) kSecondLine
      = some (.s "END x\n".toList) ∧
    dget (((search "f".toList (.fixedStr "start".toList) (some (.fixedStr "END".toList))
        true (-1) ["start\n".toList, "END x\n".toList]).getD []).getD 0 []) kFirstLine
      = some (.s (rstrip "start\n".toList)) := by
  have h := c9_normalization ["start\n".toList, "END x\n".toList] "f".toList
    (.fixedStr "start".toList) (.fixedStr "END".toList) true (-1) trivial trivial
    (((search "f".toList (.fixedStr "start".toList) (some (.fixedStr "END".toList))
        true (-1) ["start\n".toList, "END x\n".toList]).getD []).getD 0 [])
    (by decide) 1 0 (by decide) (by decide)
  exact ⟨h.1, h.2⟩

end Haystack
